import Mathlib

namespace TLBot

/-! Shallow embedding of the job-processing engine of src/main.py (and, for
claim C5, of the downloader in src/deepseek_python_20251028_59d3bb.py).
Strings are modelled as lists of characters, byte strings as lists of
naturals, loop times as naturals, and the asyncio worker machinery as an
explicit small-step transition system over an interleaving scheduler. -/

/-- Python exception model: `isException` is true for classes deriving from
`Exception` (which the bare `except Exception` at src/main.py:159 catches) and
false for classes deriving only from `BaseException` (such as
`asyncio.CancelledError` or `KeyboardInterrupt`), which that handler does not
catch. -/
instance {ε α : Type} [DecidableEq ε] [DecidableEq α] : DecidableEq (Except ε α) := fun x y =>
  match x, y with
  | .ok a, .ok b =>
    if h : a = b then .isTrue (congrArg Except.ok h)
    else .isFalse fun hc => h (Except.ok.inj hc)
  | .error a, .error b =>
    if h : a = b then .isTrue (congrArg Except.error h)
    else .isFalse fun hc => h (Except.error.inj hc)
  | .ok _, .error _ => .isFalse fun hc => Except.noConfusion hc
  | .error _, .ok _ => .isFalse fun hc => Except.noConfusion hc

structure PyExc where
  isException : Bool
deriving DecidableEq

/-- External-process model for the ffmpeg subprocess spawned at src/main.py:78:
how long it would run, its exit code, and its stderr bytes. -/
structure ExtProc where
  duration : Nat
  returncode : Int
  stderr : List Nat
deriving DecidableEq

/-- Errors raised by `convert_m3u8_async`: RuntimeError "ffmpeg timeout"
(src/main.py:88) after the process is killed, and RuntimeError
"ffmpeg failed: returncode=..., err=stderr[:400]" (src/main.py:92). -/
inductive ConvErr where
  | timeoutKilled : ConvErr
  | ffmpegFailed : Int → List Nat → ConvErr
deriving DecidableEq

/-- Observed outcome of `convert_m3u8_async`: how long the wait on the external
process lasted, whether `proc.kill()` ran, and the returned/raised result. -/
structure ConvOut where
  waited : Nat
  killed : Bool
  result : Except ConvErr Unit
deriving DecidableEq

/-- src/main.py:60-94, `convert_m3u8_async(url, output_path, timeout=0)`.
`asyncio.wait_for` is used only when `timeout and timeout > 0` (line 81); it
expires exactly when the process outlives the timeout, in which case the
process is killed and RuntimeError("ffmpeg timeout") is raised (lines 85-88).
Otherwise the code awaits the full process duration; a nonzero exit code then
raises RuntimeError carrying `stderr[:400]` (lines 90-92). -/
def convert_m3u8_async (proc : ExtProc) (timeout : Nat := 0) : ConvOut :=
  if 0 < timeout ∧ timeout < proc.duration then
    { waited := timeout, killed := true, result := .error .timeoutKilled }
  else if proc.returncode ≠ 0 then
    { waited := proc.duration, killed := false,
      result := .error (.ffmpegFailed proc.returncode (proc.stderr.take 400)) }
  else
    { waited := proc.duration, killed := false, result := .ok () }

/-- The timeout `process_single` passes to `convert_m3u8_async`: the call at
src/main.py:182 is `convert_m3u8_async(url, out_mp4)` with no timeout
argument, so the Python default `timeout = 0` applies. -/
def process_single_convert_timeout : Nat := 0

/-- The conversion exactly as a stream job runs it (src/main.py:182). -/
def process_single_convert (proc : ExtProc) : ConvOut :=
  convert_m3u8_async proc process_single_convert_timeout

/-- Result of `upload_file` (src/main.py:199-213): how many primary
`send_document` attempts and how many fallback attempts were made. The
return type records that the function never raises: both `except` branches
only log (lines 206-213). -/
structure UploadOut where
  primaryAttempts : Nat
  fallbackAttempts : Nat
deriving DecidableEq

/-- src/main.py:199-213. `primaryFails`/`fallbackFails` say whether the
respective `send_document` call raises. On primary failure exactly one
fallback attempt is made (lines 209-211); a fallback failure is logged and
swallowed (lines 212-213), so the output does not depend on `fallbackFails`
and no error ever reaches the caller. -/
def upload_file (primaryFails fallbackFails : Bool) : UploadOut :=
  if primaryFails then
    { primaryAttempts := 1, fallbackAttempts := 1 }
  else
    { primaryAttempts := 1, fallbackAttempts := 0 }

/-- Job kind: `url.endswith(".m3u8")` (src/main.py:177) selects the stream
(ffmpeg remux) branch, anything else the plain download branch. -/
inductive JobKind where
  | plain : JobKind
  | stream : JobKind
deriving DecidableEq

/-- Filesystem/upload effects of a `process_single` run: the `upload_file`
calls made and the number of `safe_remove` calls. -/
structure Effects where
  uploads : List UploadOut
  removes : Nat
deriving DecidableEq

/-- src/main.py:169-197 (minus the status-throttle lines 171-175, which are
modelled by `runStatusIdx`, and the semaphore, modelled by `Step`).
`fetchConv` is the outcome of the convert (line 182) or download (line 193)
step. On an exception there the bare `raise` (lines 184, 195) propagates it
with no upload and no cleanup; on success `upload_file` and then
`safe_remove` run (lines 186-188, 196-197). -/
def process_single (kind : JobKind) (fetchConv : Except PyExc Unit)
    (primaryFails fallbackFails : Bool) : Except PyExc Effects :=
  match kind with
  | .stream =>
    match fetchConv with
    | .error e => .error e
    | .ok () => .ok { uploads := [upload_file primaryFails fallbackFails], removes := 1 }
  | .plain =>
    match fetchConv with
    | .error e => .error e
    | .ok () => .ok { uploads := [upload_file primaryFails fallbackFails], removes := 1 }

/-- `pathlib.Path(url).name`: the final path component, used in the failure
notification at src/main.py:163. -/
def path_name (url : List Char) : List Char :=
  (url.reverse.takeWhile (fun c => c ≠ '/')).reverse

/-- What one iteration of `worker_loop` (src/main.py:144-167) does with a job
item: whether the loop continues to the next dequeue, which terminal state the
job reached (`some false` = Done, `some true` = Failed, `none` = the error
escaped the handler and killed the worker), the effects, and the failure
notifications attempted. -/
structure ItemResult where
  continues : Bool
  outcome : Option Bool
  effects : Effects
  notices : List (List Char)
  taskDone : Bool
deriving DecidableEq

/-- One `worker_loop` iteration (src/main.py:144-167) around `process_single`.
`except Exception` (line 159) catches only `Exception`-derived errors and then
attempts exactly one notification naming `pathlib.Path(url).name` (line 163);
a `BaseException`-derived error propagates and terminates the loop. The
`finally` (lines 166-167) always calls `task_done`. -/
def worker_loop_iter (kind : JobKind) (url : List Char)
    (fetchConv : Except PyExc Unit) (primaryFails fallbackFails : Bool) : ItemResult :=
  match process_single kind fetchConv primaryFails fallbackFails with
  | .ok eff =>
    { continues := true, outcome := some false, effects := eff,
      notices := [], taskDone := true }
  | .error e =>
    if e.isException then
      { continues := true, outcome := some true,
        effects := { uploads := [], removes := 0 },
        notices := [path_name url], taskDone := true }
    else
      { continues := false, outcome := none,
        effects := { uploads := [], removes := 0 },
        notices := [], taskDone := true }

/-- An HTTP response: status code and body bytes. -/
structure HttpResp where
  status : Nat
  body : List Nat
deriving DecidableEq

/-- Observed outcome of `download_file_async`: number of network requests
issued, the content of the output path afterwards (`none` = absent), and the
returned/raised result. -/
structure FetchOut where
  requests : Nat
  file : Option (List Nat)
  result : Except PyExc Unit
deriving DecidableEq

/-- src/main.py:48-57, `download_file_async(url, output_path, client)`.
`existing` is the content already at `output_path` (`none` if absent). The
code performs no existence check: it always issues the streaming GET
(line 52); `raise_for_status` (line 53) raises httpx.HTTPStatusError on a 4xx
or 5xx status before the file is opened, otherwise the body is written to the
path opened in "wb" mode (truncating any existing content, lines 54-56). -/
def download_file_async (existing : Option (List Nat)) (resp : HttpResp) : FetchOut :=
  if resp.status < 400 then
    { requests := 1, file := some resp.body, result := .ok () }
  else
    { requests := 1, file := existing, result := .error { isException := true } }

/-- Observed outcome of the deepseek downloader: requests issued, resulting
file content, success flag, and whether the "already exists" message was
returned. -/
structure DlOut where
  requests : Nat
  file : Option (List Nat)
  success : Bool
  alreadyMsg : Bool
deriving DecidableEq

/-- src/deepseek_python_20251028_59d3bb.py:65-125,
`AdvancedRASDownloader.download_file_with_progress`. If the file already
exists (line 71) it returns success immediately with the "already exists"
message (lines 72-76), issuing no request; otherwise it issues the GET
(line 83), `raise_for_status` (line 84) turning a 4xx/5xx status into the
except branch (lines 120-125), and on success writes the body (lines 90-105). -/
def download_file_with_progress (existing : Option (List Nat)) (resp : HttpResp) : DlOut :=
  match existing with
  | some content =>
    { requests := 0, file := some content, success := true, alreadyMsg := true }
  | none =>
    if resp.status < 400 then
      { requests := 1, file := some resp.body, success := true, alreadyMsg := false }
    else
      { requests := 1, file := none, success := false, alreadyMsg := false }

/-- One progress-report call: (index, reporting context, loop time, final?).
The final flag marks a job's terminal Done/Failed message in the spec's sense;
the `process_single` status messages (src/main.py:174) are never final. -/
abbrev NotifyCall := Nat × Nat × Nat × Bool

/-- src/main.py:172-175 threaded over a call sequence: `_last_status_time` is
a single field of `LinkProcessor` (line 122, initially 0) shared by all chats
and jobs; a status is sent iff `now - last > BATCH_MESSAGE_INTERVAL` (= 10,
line 38), and only then is the timestamp updated. The reporting context and
the final flag are ignored by the code. Returns the indices of the delivered
calls. -/
def runStatusIdx (last : Nat) : List NotifyCall → List Nat
  | [] => []
  | (i, _, t, _) :: rest =>
    if 10 < t - last then i :: runStatusIdx t rest else runStatusIdx last rest

/-- Follows the spec's words for claim C7 (not the source): per-context
trailing throttling. A call is delivered iff it is final, or no later
non-final call of the same context arrives within `interval` of it — so
within a burst all but the most recent update of each context are suppressed,
and final messages always pass. -/
def spec_notifier_delivered (interval : Nat) : List NotifyCall → List Nat
  | [] => []
  | (i, c, t, fin) :: rest =>
    if fin || !(rest.any fun x => x.2.1 == c && !x.2.2.2 && decide (x.2.2.1 - t < interval)) then
      i :: spec_notifier_delivered interval rest
    else
      spec_notifier_delivered interval rest

/-- A burst of `n` status calls in one reporting context, all at loop time
`t` (so all within any 1-second window). -/
def burstCalls (n t : Nat) : List NotifyCall :=
  (List.range n).map fun i => (i, 7, t, false)

/-- A job in the worker-pool model: its kind (stream jobs go through the
ffmpeg semaphore) and whether its fetch/convert step raises. -/
structure Job where
  kind : JobKind
  fails : Bool
deriving DecidableEq

/-- A worker's phase at a suspension point of `worker_loop`/`process_single`:
`idle` = at `queue.get()` (src/main.py:146); `waitSem j` = a stream job
before `async with self.ffmpeg_sem` (line 180); `converting j` = inside the
semaphore block awaiting ffmpeg (line 182); `fetching j` = a plain job
awaiting `download_file_async` (line 193); `delivering j` = past the
fetch/convert, doing upload and cleanup (lines 186-188, 196-197); `failing j`
= in the `except Exception` handler (lines 159-165); `stopped` = the loop has
exited after a `None` sentinel (lines 147-149). -/
inductive WPhase where
  | idle : WPhase
  | waitSem : Job → WPhase
  | converting : Job → WPhase
  | fetching : Job → WPhase
  | delivering : Job → WPhase
  | failing : Job → WPhase
  | stopped : WPhase
deriving DecidableEq

/-- Which phase a freshly dequeued job enters: the branch at src/main.py:177. -/
def dispatch (j : Job) : WPhase :=
  match j.kind with
  | .stream => .waitSem j
  | .plain => .fetching j

/-- Global state of the pool: the FIFO queue (`none` is the `None` shutdown
sentinel of src/main.py:133), the workers' phases, the semaphore's held-slot
count, cumulative acquire/release counters, and the recorded terminal
outcomes as (job, failed?) pairs. -/
structure PoolState where
  queue : List (Option Job)
  workers : List WPhase
  held : Nat
  acq : Nat
  rel : Nat
  results : List (Job × Bool)
deriving DecidableEq

/-- Interleaving small-step semantics of the worker pool of src/main.py,
indexed by the semaphore capacity `C` (`MAX_CONCURRENT_FFMPEG`, line 36) and
by which worker steps. One constructor per suspension-point transition:
dequeue of a job or sentinel (lines 146-149); semaphore acquire (line 180),
enabled only when a slot is free; exit of the semaphore block on ffmpeg
success or failure — both release the slot, as `async with` does on every
exit path, a timeout being one failure case — (lines 180-184); plain-download
completion or failure (lines 193-195); and completion of the upload/cleanup
path or of the failure handler, after which the worker records the terminal
outcome and returns to the dequeue point (lines 156-167). -/
inductive Step (C : Nat) : Nat → PoolState → PoolState → Prop where
  | dequeueJob (s : PoolState) (w : Nat) (j : Job) (q : List (Option Job))
      (hw : s.workers[w]? = some .idle) (hq : s.queue = some j :: q) :
      Step C w s { s with queue := q, workers := s.workers.set w (dispatch j) }
  | dequeueSentinel (s : PoolState) (w : Nat) (q : List (Option Job))
      (hw : s.workers[w]? = some .idle) (hq : s.queue = none :: q) :
      Step C w s { s with queue := q, workers := s.workers.set w .stopped }
  | acquire (s : PoolState) (w : Nat) (j : Job)
      (hw : s.workers[w]? = some (.waitSem j)) (hc : s.held < C) :
      Step C w s { s with workers := s.workers.set w (.converting j),
                          held := s.held + 1, acq := s.acq + 1 }
  | convertOk (s : PoolState) (w : Nat) (j : Job)
      (hw : s.workers[w]? = some (.converting j)) (hf : j.fails = false) :
      Step C w s { s with workers := s.workers.set w (.delivering j),
                          held := s.held - 1, rel := s.rel + 1 }
  | convertFail (s : PoolState) (w : Nat) (j : Job)
      (hw : s.workers[w]? = some (.converting j)) (hf : j.fails = true) :
      Step C w s { s with workers := s.workers.set w (.failing j),
                          held := s.held - 1, rel := s.rel + 1 }
  | fetchOk (s : PoolState) (w : Nat) (j : Job)
      (hw : s.workers[w]? = some (.fetching j)) (hf : j.fails = false) :
      Step C w s { s with workers := s.workers.set w (.delivering j) }
  | fetchFail (s : PoolState) (w : Nat) (j : Job)
      (hw : s.workers[w]? = some (.fetching j)) (hf : j.fails = true) :
      Step C w s { s with workers := s.workers.set w (.failing j) }
  | deliverDone (s : PoolState) (w : Nat) (j : Job)
      (hw : s.workers[w]? = some (.delivering j)) :
      Step C w s { s with workers := s.workers.set w .idle,
                          results := (j, false) :: s.results }
  | failDone (s : PoolState) (w : Nat) (j : Job)
      (hw : s.workers[w]? = some (.failing j)) :
      Step C w s { s with workers := s.workers.set w .idle,
                          results := (j, true) :: s.results }

/-- Reflexive-transitive closure of `Step` from a given initial state. -/
inductive Reachable (C : Nat) (init : PoolState) : PoolState → Prop where
  | refl : Reachable C init init
  | tail (s s' : PoolState) (w : Nat) :
      Reachable C init s → Step C w s s' → Reachable C init s'

/-- The pool state right after `stop_workers` (src/main.py:130-134) has
enqueued its sentinels: the pending jobs followed by exactly one `None` per
worker (the loop at lines 132-133 runs `len(self.workers)` times), all `M`
workers at their dequeue point, no semaphore slot held, no outcome recorded. -/
def initState (jobs : List Job) (M : Nat) : PoolState :=
  { queue := jobs.map some ++ List.replicate M none,
    workers := List.replicate M .idle,
    held := 0, acq := 0, rel := 0, results := [] }

def isConverting : WPhase → Bool
  | .converting _ => true
  | _ => false

/-- Number of workers currently inside the semaphore block, i.e. the number
of simultaneously running ffmpeg processes. -/
def countConverting (s : PoolState) : Nat := s.workers.countP isConverting

def isStopped : WPhase → Bool
  | .stopped => true
  | _ => false

def stoppedCount (s : PoolState) : Nat := s.workers.countP isStopped

/-- Number of shutdown sentinels currently in the queue. -/
def sentinels (q : List (Option Job)) : Nat := q.countP fun o => o.isNone

/-- The jobs currently in the queue, in order. -/
def qJobs (q : List (Option Job)) : List Job := q.filterMap id

/-- The job a worker currently holds, if any. -/
def activeJob : WPhase → Option Job
  | .idle => none
  | .stopped => none
  | .waitSem j => some j
  | .converting j => some j
  | .fetching j => some j
  | .delivering j => some j
  | .failing j => some j

/-- Multiset of jobs in the queue. -/
def mQ (s : PoolState) : Multiset Job := (qJobs s.queue : Multiset Job)

/-- Multiset of jobs currently held by workers. -/
def mA (s : PoolState) : Multiset Job := (s.workers.filterMap activeJob : Multiset Job)

/-- Multiset of jobs with a recorded terminal outcome. -/
def mR (s : PoolState) : Multiset Job := (s.results.map Prod.fst : Multiset Job)

/-- FIFO shape: all jobs precede all sentinels. True at `initState` —
`stop_workers` appends its sentinels after the pending jobs — and preserved
by head dequeues. -/
def QueueShape (q : List (Option Job)) : Prop :=
  ∃ (A : List Job) (k : Nat), q = A.map some ++ List.replicate k none

/-- Inductive invariant of the pool, established at `initState` and preserved
by every `Step`. -/
structure PoolInv (C : Nat) (jobs : List Job) (M : Nat) (s : PoolState) : Prop where
  wlen : s.workers.length = M
  semheld : s.held = countConverting s
  semcap : countConverting s ≤ C
  acqrel : s.acq = s.rel + countConverting s
  sentconsv : stoppedCount s + sentinels s.queue = M
  shape : QueueShape s.queue
  accounting : mQ s + mA s + mR s = (jobs : Multiset Job)
  stoppedNoJobs : 0 < M → stoppedCount s = M → qJobs s.queue = []

/-- Rank of a worker's phase; it strictly decreases along a worker's progress
through one queue item. -/
def phaseRank : WPhase → Nat
  | .stopped => 0
  | .idle => 1
  | .delivering _ => 2
  | .failing _ => 2
  | .converting _ => 3
  | .fetching _ => 3
  | .waitSem _ => 4

/-- Termination measure for the drain: every `Step` strictly decreases it. -/
def poolMeasure (s : PoolState) : Nat :=
  5 * s.queue.length + (s.workers.map phaseRank).sum

/-- A demonstration stream job that succeeds. -/
def demoJob : Job := { kind := .stream, fails := false }

/-- A demonstration stream job whose conversion raises. -/
def demoJobF : Job := { kind := .stream, fails := true }

/-- C1 witness trace, state 1: one worker, one stream job, after the dequeue. -/
def c1s1 : PoolState :=
  { queue := [none], workers := [.waitSem demoJob],
    held := 0, acq := 0, rel := 0, results := [] }

/-- C1 witness trace, state 2: after the semaphore acquire. -/
def c1s2 : PoolState :=
  { queue := [none], workers := [.converting demoJob],
    held := 1, acq := 1, rel := 0, results := [] }

/-- C2 witness state: two idle workers, one sentinel consumed by worker 0. -/
def c2s2 : PoolState :=
  { queue := [none], workers := [.stopped, .idle],
    held := 0, acq := 0, rel := 0, results := [] }

/-- C6 witness state: one worker converting a failing stream job, one slot
held. -/
def c6s : PoolState :=
  { queue := [], workers := [.converting demoJobF],
    held := 1, acq := 1, rel := 0, results := [] }

/-- A demonstration url for concrete witnesses. -/
def demoUrl : List Char := ['h', 't', 't', 'p', ':', '/', '/', 'x', '/', 'a', '.', 'p', 'd', 'f']

/-- A demonstration external process for the C8 witness: exit code 1 with 500
bytes of stderr. -/
def c8proc : ExtProc := { duration := 5, returncode := 1, stderr := List.replicate 500 7 }

/-- ASCII whitespace for the purposes of Python's `str.strip`/`str.split`
(space, tab, carriage return, vertical tab, form feed; line feeds are
consumed by the line splitter first). -/
def isWS (c : Char) : Bool :=
  c = ' ' || c = '\t' || c = '\r' || c = '\x0b' || c = '\x0c'

/-- `text.splitlines()` (src/main.py:99) restricted to line-feed boundaries;
the carriage return of a CRLF pair is then removed by `strip`. -/
def splitOnChar (sep : Char) : List Char → List (List Char)
  | [] => [[]]
  | c :: rest =>
    match splitOnChar sep rest with
    | [] => [[]]
    | cur :: done =>
      if c = sep then [] :: cur :: done else (c :: cur) :: done

/-- The right half of `l.strip()`: drop trailing whitespace. -/
def dropTrailWS (l : List Char) : List Char :=
  (l.reverse.dropWhile isWS).reverse

/-- Python `l.strip()` (src/main.py:99): whitespace removed from both ends. -/
def strip (l : List Char) : List Char :=
  dropTrailWS (l.dropWhile isWS)

/-- Fuelled worker for `splitWS`; the fuel only bounds the recursion depth
and is irrelevant once it is at least the list's length. -/
def splitWSGo : Nat → List Char → List (List Char)
  | _, [] => []
  | 0, _ :: _ => []
  | f + 1, c :: rest =>
    if isWS c then splitWSGo f rest
    else (c :: rest.takeWhile fun x => !isWS x)
      :: splitWSGo f (rest.dropWhile fun x => !isWS x)

/-- Python `l.split()` (src/main.py:107): the maximal runs of non-whitespace
characters, in order. -/
def splitWS (l : List Char) : List (List Char) := splitWSGo l.length l

/-- The literal "http://". -/
def httpPre : List Char := ['h', 't', 't', 'p', ':', '/', '/']

/-- The literal "https://". -/
def httpsPre : List Char := ['h', 't', 't', 'p', 's', ':', '/', '/']

/-- The literal "http". -/
def httpSub : List Char := ['h', 't', 't', 'p']

/-- `x.startswith("http://") or x.startswith("https://")`
(src/main.py:102, 109). -/
def isUrlTok (l : List Char) : Bool :=
  httpPre.isPrefixOf l || httpsPre.isPrefixOf l

/-- Python's `sub in l` substring test (src/main.py:106). -/
def containsSub (p : List Char) (l : List Char) : Bool :=
  p.isPrefixOf l ||
    match l with
    | [] => false
    | _ :: rest => containsSub p rest

/-- The non-empty stripped lines of the text (src/main.py:99). -/
def linesOf (t : List Char) : List (List Char) :=
  ((splitOnChar '\n' t).map strip).filter fun l => !l.isEmpty

/-- The per-line extraction of src/main.py:101-110: a line that itself starts
with a URL scheme is appended whole; otherwise, if "http" occurs in it, its
whitespace-separated tokens that start with a scheme are appended in order;
otherwise nothing. -/
def extractLine (l : List Char) : List (List Char) :=
  if isUrlTok l then [l]
  else if containsSub httpSub l then (splitWS l).filter isUrlTok
  else []

/-- src/main.py:97-111, `extract_links_from_text`, over character lists. -/
def extract_links_from_text (t : List Char) : List (List Char) :=
  ((linesOf t).map extractLine).flatten

/-- The stream of each non-empty stripped line followed by its whitespace
tokens, in input order; the extractor's output is an order-preserving
selection from this stream. -/
def tokenStream (t : List Char) : List (List Char) :=
  ((linesOf t).map fun l => l :: splitWS l).flatten

/-- Demonstration input for the C10 witness:
"xx http://a" / "https://b" / "yy". -/
def c10Text : List Char :=
  ['x', 'x', ' ', 'h', 't', 't', 'p', ':', '/', '/', 'a', '\n',
   'h', 't', 't', 'p', 's', ':', '/', '/', 'b', '\n', 'y', 'y']

/-- The first URL the extractor finds in `c10Text`. -/
def c10Url : List Char := ['h', 't', 't', 'p', ':', '/', '/', 'a']

/-! Theorems. -/

/-- Claim C8: for every conversion whose external remux process exits with a
nonzero return code (and does not hit a configured timeout first), the
conversion fails with the ConversionError-style RuntimeError of
src/main.py:92, and the diagnostic text attached to it is a prefix of the
process's stderr stream of at most 400 bytes. -/
theorem c8_conversion_error (proc : ExtProc) (timeout : Nat)
    (hnt : timeout = 0 ∨ proc.duration ≤ timeout) (hrc : proc.returncode ≠ 0) :
    (convert_m3u8_async proc timeout).result
        = .error (.ffmpegFailed proc.returncode (proc.stderr.take 400))
      ∧ proc.stderr.take 400 <+: proc.stderr
      ∧ (proc.stderr.take 400).length ≤ 400 := by
  have hto : ¬(0 < timeout ∧ timeout < proc.duration) := by omega
  refine ⟨?_, List.take_prefix 400 proc.stderr, ?_⟩
  · simp only [convert_m3u8_async, if_neg hto, if_pos hrc]
  · rw [List.length_take]
    exact inf_le_left

/-- Witness for C8 at a concrete process that exits with code 1 and 500 bytes
of stderr. -/
theorem c8_conversion_error_witness :
    ((0 : Nat) = 0 ∨ c8proc.duration ≤ 0)
      ∧ (c8proc.returncode ≠ 0)
      ∧ ((convert_m3u8_async c8proc 0).result
            = .error (.ffmpegFailed c8proc.returncode (c8proc.stderr.take 400))
          ∧ c8proc.stderr.take 400 <+: c8proc.stderr
          ∧ (c8proc.stderr.take 400).length ≤ 400) :=
  ⟨Or.inl rfl, by decide, c8_conversion_error c8proc 0 (Or.inl rfl) (by decide)⟩

/-- Counterexample to claim C6 as stated: stream jobs call the converter with
no timeout (src/main.py:182, Python default 0), so the wait on the external
process is not bounded by any configured conversion timeout — a process that
runs for 1000000 time units is awaited in full, never killed, and no
TimeoutError is raised. -/
theorem c6_counterexample :
    process_single_convert_timeout = 0
      ∧ (process_single_convert { duration := 1000000, returncode := 0, stderr := [] }).waited
          = 1000000
      ∧ (process_single_convert { duration := 1000000, returncode := 0, stderr := [] }).killed
          = false
      ∧ (process_single_convert { duration := 1000000, returncode := 0, stderr := [] }).result
          = .ok () := by
  refine ⟨rfl, ?_, ?_, ?_⟩ <;> decide

/-- Counterexample to claim C5 as stated: `download_file_async`
(src/main.py:48-57) performs no existence short-circuit — with content
[1, 2, 3] already at the destination it still issues one network request and
overwrites the file with the response body [9]. -/
theorem c5_counterexample :
    (download_file_async (some [1, 2, 3]) { status := 200, body := [9] }).requests = 1
      ∧ (download_file_async (some [1, 2, 3]) { status := 200, body := [9] }).file
          = some [9] := by
  decide

/-- Claim C5 amended: the existence short-circuit exists only in the deepseek
downloader — `download_file_with_progress` returns success immediately with
no request and the file unchanged when the destination exists — while
main.py's `download_file_async` always issues exactly one request regardless
of the destination's prior state. -/
theorem c5_amended (existing : Option (List Nat)) (resp : HttpResp) (content : List Nat) :
    (download_file_with_progress (some content) resp).requests = 0
      ∧ (download_file_with_progress (some content) resp).file = some content
      ∧ (download_file_with_progress (some content) resp).success = true
      ∧ (download_file_async existing resp).requests = 1 := by
  refine ⟨rfl, rfl, rfl, ?_⟩
  unfold download_file_async
  split <;> rfl

/-- Counterexample to claim C9 as stated: when the primary upload and the one
fallback both fail, `upload_file` (src/main.py:199-213) swallows the failure
and returns normally — no DeliveryError reaches the worker, so the job still
ends Done (outcome `some false`), with cleanup attempted. -/
theorem c9_counterexample :
    upload_file true true = { primaryAttempts := 1, fallbackAttempts := 1 }
      ∧ (worker_loop_iter .plain demoUrl (.ok ()) true true).outcome = some false
      ∧ (worker_loop_iter .plain demoUrl (.ok ()) true true).effects.removes = 1 := by
  decide

/-- Claim C9 amended: on a primary upload failure exactly one fallback
delivery attempt is made, but a failure of the fallback is logged and
swallowed rather than surfaced: `upload_file` returns normally in every case,
so a job whose delivery exhausts the fallback still ends Done (never Failed),
and cleanup still runs. -/
theorem c9_amended (primaryFails fallbackFails : Bool) (kind : JobKind) (url : List Char) :
    (upload_file primaryFails fallbackFails).fallbackAttempts
        = (if primaryFails then 1 else 0)
      ∧ (upload_file primaryFails fallbackFails).primaryAttempts = 1
      ∧ (worker_loop_iter kind url (.ok ()) primaryFails fallbackFails).outcome = some false
      ∧ (worker_loop_iter kind url (.ok ()) primaryFails fallbackFails).effects.removes = 1 := by
  cases kind <;> cases primaryFails <;> cases fallbackFails <;> exact ⟨rfl, rfl, rfl, rfl⟩

/-- Counterexample to claim C4 as stated: a job whose fetch/conversion raises
an (Exception-derived) error reaches the terminal Failed state with zero
removal attempts — the `raise` at src/main.py:184/195 skips the cleanup at
lines 188/197 and `worker_loop`'s handler (lines 159-165) performs none, so
partial output is left on disk. -/
theorem c4_counterexample :
    (worker_loop_iter .stream demoUrl (.error { isException := true }) false false).outcome
        = some true
      ∧ (worker_loop_iter .stream demoUrl (.error { isException := true }) false
          false).effects.removes = 0 := by
  decide

/-- Claim C4 amended: removal of the artifact is attempted exactly once for
every job whose fetch/conversion succeeds — after the delivery attempt,
regardless of whether delivery (and its fallback) failed — but for a job
whose fetch/conversion raises, no removal is attempted at all, and the job
ends Failed with any partial output left behind. -/
theorem c4_amended (kind : JobKind) (url : List Char) (primaryFails fallbackFails : Bool) :
    (worker_loop_iter kind url (.ok ()) primaryFails fallbackFails).effects.removes = 1
      ∧ (worker_loop_iter kind url (.ok ()) primaryFails fallbackFails).outcome = some false
      ∧ (worker_loop_iter kind url (.error { isException := true })
          primaryFails fallbackFails).effects.removes = 0
      ∧ (worker_loop_iter kind url (.error { isException := true })
          primaryFails fallbackFails).outcome = some true := by
  cases kind <;> cases primaryFails <;> cases fallbackFails <;> exact ⟨rfl, rfl, rfl, rfl⟩

/-- Counterexample to claim C2 as stated: an error of a type deriving only
from `BaseException` — e.g. `asyncio.CancelledError` or `KeyboardInterrupt`,
modelled by `isException = false` — is not caught by the `except Exception`
handler at src/main.py:159: the worker loop terminates and no failure
notification is attempted. -/
theorem c2_counterexample :
    (worker_loop_iter .plain demoUrl (.error { isException := false }) false false).continues
        = false
      ∧ (worker_loop_iter .plain demoUrl (.error { isException := false }) false
          false).notices = [] := by
  decide

/-! Helper lemmas for the pool invariant. -/

lemma countP_set_eq {α : Type} (p : α → Bool) (l : List α) (w : Nat) (x old : α)
    (h : l[w]? = some old) :
    (l.set w x).countP p + (if p old then 1 else 0)
      = l.countP p + (if p x then 1 else 0) := by
  induction l generalizing w with
  | nil => simp at h
  | cons a t ih =>
    cases w with
    | zero =>
      rw [List.getElem?_cons_zero] at h
      injection h with h2
      subst h2
      cases hpa : p a <;> cases hpx : p x <;>
        simp [List.set_cons_zero, List.countP_cons, hpa, hpx] <;> omega
    | succ w =>
      rw [List.getElem?_cons_succ] at h
      have ihw := ih w h
      cases hpo : p old <;> cases hpx : p x <;> cases hpa : p a <;>
        simp [hpo, hpx, hpa, List.set_cons_succ, List.countP_cons] at ihw ⊢ <;> omega

lemma sum_map_set_eq {α : Type} (f : α → Nat) (l : List α) (w : Nat) (x old : α)
    (h : l[w]? = some old) :
    ((l.set w x).map f).sum + f old = (l.map f).sum + f x := by
  induction l generalizing w with
  | nil => simp at h
  | cons a t ih =>
    cases w with
    | zero =>
      rw [List.getElem?_cons_zero] at h
      injection h with h2
      subst h2
      simp only [List.set_cons_zero, List.map_cons, List.sum_cons]
      omega
    | succ w =>
      rw [List.getElem?_cons_succ] at h
      have ihw := ih w h
      simp only [List.set_cons_succ, List.map_cons, List.sum_cons] at ihw ⊢
      omega

lemma filterMap_cons_tl {α β : Type} (g : α → Option β) (a : α) (t : List α) :
    (a :: t).filterMap g = (g a).toList ++ t.filterMap g := by
  cases h : g a <;> simp [List.filterMap_cons, h, Option.toList]

lemma perm_swap_ends {β : Type} (A B F : List β) : ((A ++ F) ++ B).Perm ((B ++ F) ++ A) := by
  have h1 : ((A ++ F) ++ B).Perm (B ++ (A ++ F)) := List.perm_append_comm
  have h2 : (A ++ F).Perm (F ++ A) := List.perm_append_comm
  have h3 : (B ++ (A ++ F)).Perm (B ++ (F ++ A)) := List.Perm.append_left B h2
  have h4 : B ++ (F ++ A) = (B ++ F) ++ A := (List.append_assoc B F A).symm
  exact h1.trans (h3.trans (by rw [h4]))

lemma filterMap_set_perm {α β : Type} (g : α → Option β) (l : List α) (w : Nat) (x old : α)
    (h : l[w]? = some old) :
    ((l.set w x).filterMap g ++ (g old).toList).Perm
      (l.filterMap g ++ (g x).toList) := by
  induction l generalizing w with
  | nil => simp at h
  | cons a t ih =>
    cases w with
    | zero =>
      rw [List.getElem?_cons_zero] at h
      injection h with h2
      subst h2
      rw [List.set_cons_zero, filterMap_cons_tl, filterMap_cons_tl]
      exact perm_swap_ends (g x).toList (g a).toList (t.filterMap g)
    | succ w =>
      rw [List.getElem?_cons_succ] at h
      have ihw := ih w h
      rw [List.set_cons_succ, filterMap_cons_tl, filterMap_cons_tl,
        List.append_assoc, List.append_assoc]
      exact List.Perm.append_left _ ihw

lemma filterMap_set_ms {α β : Type} (g : α → Option β) (l : List α) (w : Nat) (x old : α)
    (h : l[w]? = some old) :
    (((l.set w x).filterMap g : List β) : Multiset β) + ((g old).toList : Multiset β)
      = ((l.filterMap g : List β) : Multiset β) + ((g x).toList : Multiset β) := by
  rw [Multiset.coe_add, Multiset.coe_add]
  exact Multiset.coe_eq_coe.mpr (filterMap_set_perm g l w x old h)

lemma coe_cons_ms {α : Type} (x : α) (L : List α) :
    ((x :: L : List α) : Multiset α) = {x} + (L : Multiset α) := by
  rw [← Multiset.cons_coe, Multiset.singleton_add]

lemma qJobs_map_some (js : List Job) : qJobs (js.map some) = js := by
  induction js with
  | nil => rfl
  | cons a t ih =>
    simp only [List.map_cons, qJobs, List.filterMap_cons, id] at ih ⊢
    rw [ih]

lemma qJobs_replicate_none (k : Nat) : qJobs (List.replicate k none) = [] := by
  induction k with
  | zero => rfl
  | succ k ih =>
    simp only [List.replicate_succ, qJobs, List.filterMap_cons] at ih ⊢
    exact ih

lemma qJobs_append (q r : List (Option Job)) : qJobs (q ++ r) = qJobs q ++ qJobs r :=
  List.filterMap_append q r id

lemma isConverting_dispatch (j : Job) : isConverting (dispatch j) = false := by
  unfold dispatch
  cases j.kind <;> rfl

lemma isStopped_dispatch (j : Job) : isStopped (dispatch j) = false := by
  unfold dispatch
  cases j.kind <;> rfl

lemma activeJob_dispatch (j : Job) : activeJob (dispatch j) = some j := by
  unfold dispatch
  cases j.kind <;> rfl

/-- The invariant holds in the state `stop_workers` starts the drain from. -/
lemma initState_inv (C M : Nat) (jobs : List Job) : PoolInv C jobs M (initState jobs M) := by
  have h1 : qJobs (jobs.map some ++ List.replicate M none) = jobs := by
    rw [qJobs_append, qJobs_map_some, qJobs_replicate_none, List.append_nil]
  have h2 : (List.replicate M WPhase.idle).filterMap activeJob = [] :=
    List.filterMap_eq_nil_iff.mpr fun a ha => by rw [List.eq_of_mem_replicate ha]; rfl
  refine ⟨?_, ?_, ?_, ?_, ?_, ?_, ?_, ?_⟩
  · simp [initState]
  · simp [initState, countConverting, List.countP_replicate, isConverting]
  · simp [initState, countConverting, List.countP_replicate, isConverting]
  · simp [initState, countConverting, List.countP_replicate, isConverting]
  · simp [initState, stoppedCount, sentinels, List.countP_append, List.countP_map,
      List.countP_replicate, isStopped, Function.comp, Option.isNone_some]
  · exact ⟨jobs, M, rfl⟩
  · simp only [initState, mQ, mA, mR, h1, h2, List.map_nil, Multiset.coe_nil, add_zero]
  · intro hM h0
    have hz : (0 : Nat) = M := by
      simpa [initState, stoppedCount, List.countP_replicate, isStopped] using h0
    omega

/-- The invariant is preserved by every step of the pool. -/
lemma step_inv {C M : Nat} {jobs : List Job} {s s' : PoolState} {w : Nat}
    (inv : PoolInv C jobs M s) (hstep : Step C w s s') : PoolInv C jobs M s' := by
  cases hstep with
  | dequeueJob _ _ j q hw hq =>
    have hcc := countP_set_eq isConverting s.workers w (dispatch j) WPhase.idle hw
    have hst := countP_set_eq isStopped s.workers w (dispatch j) WPhase.idle hw
    have hac := filterMap_set_ms activeJob s.workers w (dispatch j) WPhase.idle hw
    rw [isConverting_dispatch] at hcc
    simp [isConverting] at hcc
    rw [isStopped_dispatch] at hst
    simp [isStopped] at hst
    rw [activeJob_dispatch] at hac
    simp only [activeJob, Option.toList, Multiset.coe_nil, Multiset.coe_singleton,
      add_zero, zero_add] at hac
    refine ⟨?_, ?_, ?_, ?_, ?_, ?_, ?_, ?_⟩
    · simp [List.length_set, inv.wlen]
    · have h := inv.semheld
      simp only [countConverting] at h ⊢
      omega
    · have h := inv.semcap
      simp only [countConverting] at h ⊢
      omega
    · have h := inv.acqrel
      simp only [countConverting] at h ⊢
      omega
    · have h := inv.sentconsv
      rw [hq] at h
      simp only [stoppedCount, sentinels, List.countP_cons, Option.isNone_some,
        if_false, Bool.false_eq_true, add_zero] at h ⊢
      omega
    · obtain ⟨A, k, hA⟩ := inv.shape
      rw [hq] at hA
      cases A with
      | nil =>
        exfalso
        cases k with
        | zero => simp at hA
        | succ k => simp [List.replicate_succ] at hA
      | cons a A =>
        simp only [List.map_cons, List.cons_append] at hA
        injection hA with h1 h2
        exact ⟨A, k, h2⟩
    · have h := inv.accounting
      simp only [mQ, mA, mR] at h ⊢
      rw [hq] at h
      have hql : qJobs (some j :: q) = j :: qJobs q := by
        simp [qJobs, List.filterMap_cons]
      rw [hql, coe_cons_ms] at h
      rw [hac]
      calc (qJobs q : Multiset Job) + (↑(s.workers.filterMap activeJob) + {j})
            + ↑(s.results.map Prod.fst)
          = ({j} + ↑(qJobs q)) + ↑(s.workers.filterMap activeJob)
            + ↑(s.results.map Prod.fst) := by abel
        _ = (jobs : Multiset Job) := h
    · intro hM h0
      exfalso
      have h1 : stoppedCount s = M := by
        simp only [stoppedCount] at h0 ⊢
        omega
      have h2 := inv.stoppedNoJobs hM h1
      rw [hq] at h2
      simp [qJobs, List.filterMap_cons] at h2
  | dequeueSentinel _ _ q hw hq =>
    have hcc := countP_set_eq isConverting s.workers w WPhase.stopped WPhase.idle hw
    have hst := countP_set_eq isStopped s.workers w WPhase.stopped WPhase.idle hw
    have hac := filterMap_set_ms activeJob s.workers w WPhase.stopped WPhase.idle hw
    simp [isConverting] at hcc
    simp [isStopped] at hst
    simp only [activeJob, Option.toList, Multiset.coe_nil, Multiset.coe_singleton,
      add_zero, zero_add] at hac
    have hex : ∃ k', q = List.replicate k' none := by
      obtain ⟨A, k, hA⟩ := inv.shape
      rw [hq] at hA
      cases A with
      | nil =>
        cases k with
        | zero => simp at hA
        | succ k =>
          simp only [List.map_nil, List.nil_append, List.replicate_succ] at hA
          injection hA with h1 h2
          exact ⟨k, h2⟩
      | cons a A =>
        simp only [List.map_cons, List.cons_append] at hA
        injection hA with h1 h2
        exact Option.noConfusion h1
    obtain ⟨k', hk⟩ := hex
    refine ⟨?_, ?_, ?_, ?_, ?_, ?_, ?_, ?_⟩
    · simp [List.length_set, inv.wlen]
    · have h := inv.semheld
      simp only [countConverting] at h ⊢
      omega
    · have h := inv.semcap
      simp only [countConverting] at h ⊢
      omega
    · have h := inv.acqrel
      simp only [countConverting] at h ⊢
      omega
    · have h := inv.sentconsv
      rw [hq] at h
      simp only [stoppedCount, sentinels, List.countP_cons, Option.isNone_none] at h ⊢
      simp at h
      omega
    · exact ⟨[], k', by simpa using hk⟩
    · have h := inv.accounting
      simp only [mQ, mA, mR] at h ⊢
      rw [hq] at h
      have hql : qJobs (none :: q) = qJobs q := by
        simp [qJobs, List.filterMap_cons]
      rw [hql] at h
      rw [hac]
      exact h
    · intro _ _
      rw [hk]
      exact qJobs_replicate_none k'
  | acquire _ _ j hw hc =>
    have hcc := countP_set_eq isConverting s.workers w (WPhase.converting j) (WPhase.waitSem j) hw
    have hst := countP_set_eq isStopped s.workers w (WPhase.converting j) (WPhase.waitSem j) hw
    have hac := filterMap_set_ms activeJob s.workers w (WPhase.converting j) (WPhase.waitSem j) hw
    simp [isConverting] at hcc
    simp [isStopped] at hst
    simp only [activeJob, Option.toList, Multiset.coe_nil, Multiset.coe_singleton,
      add_zero, zero_add] at hac
    have hac2 := add_right_cancel hac
    refine ⟨?_, ?_, ?_, ?_, ?_, ?_, ?_, ?_⟩
    · simp [List.length_set, inv.wlen]
    · have h := inv.semheld
      simp only [countConverting] at h ⊢
      omega
    · have h1 := inv.semheld
      simp only [countConverting] at h1 ⊢
      omega
    · have h1 := inv.acqrel
      simp only [countConverting] at h1 ⊢
      omega
    · have h := inv.sentconsv
      simp only [stoppedCount, sentinels] at h ⊢
      omega
    · exact inv.shape
    · have h := inv.accounting
      simp only [mQ, mA, mR] at h ⊢
      rw [hac2]
      exact h
    · intro hM h0
      have h1 : stoppedCount s = M := by
        simp only [stoppedCount] at h0 ⊢
        omega
      exact inv.stoppedNoJobs hM h1
  | convertOk _ _ j hw hf =>
    have hcc := countP_set_eq isConverting s.workers w (WPhase.delivering j) (WPhase.converting j) hw
    have hst := countP_set_eq isStopped s.workers w (WPhase.delivering j) (WPhase.converting j) hw
    have hac := filterMap_set_ms activeJob s.workers w (WPhase.delivering j) (WPhase.converting j) hw
    simp [isConverting] at hcc
    simp [isStopped] at hst
    simp only [activeJob, Option.toList, Multiset.coe_nil, Multiset.coe_singleton,
      add_zero, zero_add] at hac
    have hac2 := add_right_cancel hac
    refine ⟨?_, ?_, ?_, ?_, ?_, ?_, ?_, ?_⟩
    · simp [List.length_set, inv.wlen]
    · have h := inv.semheld
      simp only [countConverting] at h ⊢
      omega
    · have h1 := inv.semcap
      simp only [countConverting] at h1 ⊢
      omega
    · have h1 := inv.acqrel
      simp only [countConverting] at h1 ⊢
      omega
    · have h := inv.sentconsv
      simp only [stoppedCount, sentinels] at h ⊢
      omega
    · exact inv.shape
    · have h := inv.accounting
      simp only [mQ, mA, mR] at h ⊢
      rw [hac2]
      exact h
    · intro hM h0
      have h1 : stoppedCount s = M := by
        simp only [stoppedCount] at h0 ⊢
        omega
      exact inv.stoppedNoJobs hM h1
  | convertFail _ _ j hw hf =>
    have hcc := countP_set_eq isConverting s.workers w (WPhase.failing j) (WPhase.converting j) hw
    have hst := countP_set_eq isStopped s.workers w (WPhase.failing j) (WPhase.converting j) hw
    have hac := filterMap_set_ms activeJob s.workers w (WPhase.failing j) (WPhase.converting j) hw
    simp [isConverting] at hcc
    simp [isStopped] at hst
    simp only [activeJob, Option.toList, Multiset.coe_nil, Multiset.coe_singleton,
      add_zero, zero_add] at hac
    have hac2 := add_right_cancel hac
    refine ⟨?_, ?_, ?_, ?_, ?_, ?_, ?_, ?_⟩
    · simp [List.length_set, inv.wlen]
    · have h := inv.semheld
      simp only [countConverting] at h ⊢
      omega
    · have h1 := inv.semcap
      simp only [countConverting] at h1 ⊢
      omega
    · have h1 := inv.acqrel
      simp only [countConverting] at h1 ⊢
      omega
    · have h := inv.sentconsv
      simp only [stoppedCount, sentinels] at h ⊢
      omega
    · exact inv.shape
    · have h := inv.accounting
      simp only [mQ, mA, mR] at h ⊢
      rw [hac2]
      exact h
    · intro hM h0
      have h1 : stoppedCount s = M := by
        simp only [stoppedCount] at h0 ⊢
        omega
      exact inv.stoppedNoJobs hM h1
  | fetchOk _ _ j hw hf =>
    have hcc := countP_set_eq isConverting s.workers w (WPhase.delivering j) (WPhase.fetching j) hw
    have hst := countP_set_eq isStopped s.workers w (WPhase.delivering j) (WPhase.fetching j) hw
    have hac := filterMap_set_ms activeJob s.workers w (WPhase.delivering j) (WPhase.fetching j) hw
    simp [isConverting] at hcc
    simp [isStopped] at hst
    simp only [activeJob, Option.toList, Multiset.coe_nil, Multiset.coe_singleton,
      add_zero, zero_add] at hac
    have hac2 := add_right_cancel hac
    refine ⟨?_, ?_, ?_, ?_, ?_, ?_, ?_, ?_⟩
    · simp [List.length_set, inv.wlen]
    · have h := inv.semheld
      simp only [countConverting] at h ⊢
      omega
    · have h1 := inv.semcap
      simp only [countConverting] at h1 ⊢
      omega
    · have h1 := inv.acqrel
      simp only [countConverting] at h1 ⊢
      omega
    · have h := inv.sentconsv
      simp only [stoppedCount, sentinels] at h ⊢
      omega
    · exact inv.shape
    · have h := inv.accounting
      simp only [mQ, mA, mR] at h ⊢
      rw [hac2]
      exact h
    · intro hM h0
      have h1 : stoppedCount s = M := by
        simp only [stoppedCount] at h0 ⊢
        omega
      exact inv.stoppedNoJobs hM h1
  | fetchFail _ _ j hw hf =>
    have hcc := countP_set_eq isConverting s.workers w (WPhase.failing j) (WPhase.fetching j) hw
    have hst := countP_set_eq isStopped s.workers w (WPhase.failing j) (WPhase.fetching j) hw
    have hac := filterMap_set_ms activeJob s.workers w (WPhase.failing j) (WPhase.fetching j) hw
    simp [isConverting] at hcc
    simp [isStopped] at hst
    simp only [activeJob, Option.toList, Multiset.coe_nil, Multiset.coe_singleton,
      add_zero, zero_add] at hac
    have hac2 := add_right_cancel hac
    refine ⟨?_, ?_, ?_, ?_, ?_, ?_, ?_, ?_⟩
    · simp [List.length_set, inv.wlen]
    · have h := inv.semheld
      simp only [countConverting] at h ⊢
      omega
    · have h1 := inv.semcap
      simp only [countConverting] at h1 ⊢
      omega
    · have h1 := inv.acqrel
      simp only [countConverting] at h1 ⊢
      omega
    · have h := inv.sentconsv
      simp only [stoppedCount, sentinels] at h ⊢
      omega
    · exact inv.shape
    · have h := inv.accounting
      simp only [mQ, mA, mR] at h ⊢
      rw [hac2]
      exact h
    · intro hM h0
      have h1 : stoppedCount s = M := by
        simp only [stoppedCount] at h0 ⊢
        omega
      exact inv.stoppedNoJobs hM h1
  | deliverDone _ _ j hw =>
    have hcc := countP_set_eq isConverting s.workers w WPhase.idle (WPhase.delivering j) hw
    have hst := countP_set_eq isStopped s.workers w WPhase.idle (WPhase.delivering j) hw
    have hac := filterMap_set_ms activeJob s.workers w WPhase.idle (WPhase.delivering j) hw
    simp [isConverting] at hcc
    simp [isStopped] at hst
    simp only [activeJob, Option.toList, Multiset.coe_nil, Multiset.coe_singleton,
      add_zero, zero_add] at hac
    refine ⟨?_, ?_, ?_, ?_, ?_, ?_, ?_, ?_⟩
    · simp [List.length_set, inv.wlen]
    · have h := inv.semheld
      simp only [countConverting] at h ⊢
      omega
    · have h1 := inv.semcap
      simp only [countConverting] at h1 ⊢
      omega
    · have h1 := inv.acqrel
      simp only [countConverting] at h1 ⊢
      omega
    · have h := inv.sentconsv
      simp only [stoppedCount, sentinels] at h ⊢
      omega
    · exact inv.shape
    · have h := inv.accounting
      simp only [mQ, mA, mR] at h ⊢
      rw [List.map_cons, coe_cons_ms]
      calc (qJobs s.queue : Multiset Job)
            + ↑((s.workers.set w WPhase.idle).filterMap activeJob)
            + ({j} + ↑(s.results.map Prod.fst))
          = (qJobs s.queue : Multiset Job)
            + (↑((s.workers.set w WPhase.idle).filterMap activeJob) + {j})
            + ↑(s.results.map Prod.fst) := by abel
        _ = (qJobs s.queue : Multiset Job) + ↑(s.workers.filterMap activeJob)
            + ↑(s.results.map Prod.fst) := by rw [hac]
        _ = (jobs : Multiset Job) := h
    · intro hM h0
      have h1 : stoppedCount s = M := by
        simp only [stoppedCount] at h0 ⊢
        omega
      exact inv.stoppedNoJobs hM h1
  | failDone _ _ j hw =>
    have hcc := countP_set_eq isConverting s.workers w WPhase.idle (WPhase.failing j) hw
    have hst := countP_set_eq isStopped s.workers w WPhase.idle (WPhase.failing j) hw
    have hac := filterMap_set_ms activeJob s.workers w WPhase.idle (WPhase.failing j) hw
    simp [isConverting] at hcc
    simp [isStopped] at hst
    simp only [activeJob, Option.toList, Multiset.coe_nil, Multiset.coe_singleton,
      add_zero, zero_add] at hac
    refine ⟨?_, ?_, ?_, ?_, ?_, ?_, ?_, ?_⟩
    · simp [List.length_set, inv.wlen]
    · have h := inv.semheld
      simp only [countConverting] at h ⊢
      omega
    · have h1 := inv.semcap
      simp only [countConverting] at h1 ⊢
      omega
    · have h1 := inv.acqrel
      simp only [countConverting] at h1 ⊢
      omega
    · have h := inv.sentconsv
      simp only [stoppedCount, sentinels] at h ⊢
      omega
    · exact inv.shape
    · have h := inv.accounting
      simp only [mQ, mA, mR] at h ⊢
      rw [List.map_cons, coe_cons_ms]
      calc (qJobs s.queue : Multiset Job)
            + ↑((s.workers.set w WPhase.idle).filterMap activeJob)
            + ({j} + ↑(s.results.map Prod.fst))
          = (qJobs s.queue : Multiset Job)
            + (↑((s.workers.set w WPhase.idle).filterMap activeJob) + {j})
            + ↑(s.results.map Prod.fst) := by abel
        _ = (qJobs s.queue : Multiset Job) + ↑(s.workers.filterMap activeJob)
            + ↑(s.results.map Prod.fst) := by rw [hac]
        _ = (jobs : Multiset Job) := h
    · intro hM h0
      have h1 : stoppedCount s = M := by
        simp only [stoppedCount] at h0 ⊢
        omega
      exact inv.stoppedNoJobs hM h1

/-- Every state reachable from the drain's start satisfies the invariant. -/
lemma reachable_inv {C M : Nat} {jobs : List Job} {s : PoolState}
    (h : Reachable C (initState jobs M) s) : PoolInv C jobs M s := by
  induction h with
  | refl => exact initState_inv C M jobs
  | tail s1 s2 w hr hstep ih => exact step_inv ih hstep

/-- Every step of the pool strictly decreases the termination measure. -/
lemma poolMeasure_decreases {C w : Nat} {s s' : PoolState}
    (hstep : Step C w s s') : poolMeasure s' < poolMeasure s := by
  cases hstep with
  | dequeueJob _ _ j q hw hq =>
    have hsum := sum_map_set_eq phaseRank s.workers w (dispatch j) WPhase.idle hw
    have hrank : phaseRank (dispatch j) = 4 ∨ phaseRank (dispatch j) = 3 := by
      unfold dispatch
      cases j.kind
      · right; rfl
      · left; rfl
    have hlen : s.queue.length = q.length + 1 := by rw [hq]; rfl
    rcases hrank with h4 | h4 <;>
      (rw [h4] at hsum; simp only [poolMeasure, phaseRank] at hsum ⊢; omega)
  | dequeueSentinel _ _ q hw hq =>
    have hsum := sum_map_set_eq phaseRank s.workers w WPhase.stopped WPhase.idle hw
    have hlen : s.queue.length = q.length + 1 := by rw [hq]; rfl
    simp only [poolMeasure, phaseRank] at hsum ⊢
    omega
  | acquire _ _ j hw hc =>
    have hsum := sum_map_set_eq phaseRank s.workers w (WPhase.converting j) (WPhase.waitSem j) hw
    simp only [poolMeasure, phaseRank] at hsum ⊢
    omega
  | convertOk _ _ j hw hf =>
    have hsum := sum_map_set_eq phaseRank s.workers w (WPhase.delivering j) (WPhase.converting j) hw
    simp only [poolMeasure, phaseRank] at hsum ⊢
    omega
  | convertFail _ _ j hw hf =>
    have hsum := sum_map_set_eq phaseRank s.workers w (WPhase.failing j) (WPhase.converting j) hw
    simp only [poolMeasure, phaseRank] at hsum ⊢
    omega
  | fetchOk _ _ j hw hf =>
    have hsum := sum_map_set_eq phaseRank s.workers w (WPhase.delivering j) (WPhase.fetching j) hw
    simp only [poolMeasure, phaseRank] at hsum ⊢
    omega
  | fetchFail _ _ j hw hf =>
    have hsum := sum_map_set_eq phaseRank s.workers w (WPhase.failing j) (WPhase.fetching j) hw
    simp only [poolMeasure, phaseRank] at hsum ⊢
    omega
  | deliverDone _ _ j hw =>
    have hsum := sum_map_set_eq phaseRank s.workers w WPhase.idle (WPhase.delivering j) hw
    simp only [poolMeasure, phaseRank] at hsum ⊢
    omega
  | failDone _ _ j hw =>
    have hsum := sum_map_set_eq phaseRank s.workers w WPhase.idle (WPhase.failing j) hw
    simp only [poolMeasure, phaseRank] at hsum ⊢
    omega

/-- In a stuck state of a pool with positive limiter capacity, every worker
has stopped: an idle worker could dequeue (or the sentinel conservation law
would be violated), a waiting worker could acquire unless the limiter is
full — in which case some converting worker could step — and converting,
fetching, delivering and failing workers always have a step. -/
lemma all_stopped_of_stuck {C M : Nat} {jobs : List Job} {s : PoolState}
    (hC : 1 ≤ C) (inv : PoolInv C jobs M s)
    (hstuck : ∀ (w : Nat) (s' : PoolState), ¬ Step C w s s') :
    ∀ ph ∈ s.workers, ph = WPhase.stopped := by
  intro ph hmem
  obtain ⟨w, hw⟩ := List.getElem?_of_mem hmem
  cases ph with
  | idle =>
    exfalso
    cases hq : s.queue with
    | nil =>
      have hsent : sentinels s.queue = 0 := by rw [hq]; rfl
      have hstM : stoppedCount s = M := by
        have := inv.sentconsv
        omega
      have h1 : s.workers.countP isStopped = s.workers.length := by
        have h2 := inv.wlen
        simp only [stoppedCount] at hstM
        omega
      have hall := List.countP_eq_length.mp h1
      have := hall WPhase.idle hmem
      simp [isStopped] at this
    | cons o q =>
      cases o with
      | some j => exact hstuck w _ (Step.dequeueJob s w j q hw hq)
      | none => exact hstuck w _ (Step.dequeueSentinel s w q hw hq)
  | waitSem j =>
    exfalso
    by_cases hheld : s.held < C
    · exact hstuck w _ (Step.acquire s w j hw hheld)
    · have hcc : countConverting s = C := by
        have h1 := inv.semheld
        have h2 := inv.semcap
        omega
      have hpos : 0 < s.workers.countP isConverting := by
        simp only [countConverting] at hcc
        omega
      obtain ⟨x, hxmem, hxconv⟩ := List.countP_pos_iff.mp hpos
      have hx : ∃ j', x = WPhase.converting j' := by
        cases x with
        | converting a => exact ⟨a, rfl⟩
        | idle => simp [isConverting] at hxconv
        | waitSem a => simp [isConverting] at hxconv
        | fetching a => simp [isConverting] at hxconv
        | delivering a => simp [isConverting] at hxconv
        | failing a => simp [isConverting] at hxconv
        | stopped => simp [isConverting] at hxconv
      obtain ⟨j', rfl⟩ := hx
      obtain ⟨w', hw'⟩ := List.getElem?_of_mem hxmem
      cases hf : j'.fails with
      | false => exact hstuck w' _ (Step.convertOk s w' j' hw' hf)
      | true => exact hstuck w' _ (Step.convertFail s w' j' hw' hf)
  | converting j =>
    exfalso
    cases hf : j.fails with
    | false => exact hstuck w _ (Step.convertOk s w j hw hf)
    | true => exact hstuck w _ (Step.convertFail s w j hw hf)
  | fetching j =>
    exfalso
    cases hf : j.fails with
    | false => exact hstuck w _ (Step.fetchOk s w j hw hf)
    | true => exact hstuck w _ (Step.fetchFail s w j hw hf)
  | delivering j => exact absurd (Step.deliverDone s w j hw) (hstuck w _)
  | failing j => exact absurd (Step.failDone s w j hw) (hstuck w _)
  | stopped => rfl

/-- A reachable stuck state of a pool started by `stop_workers` is fully
drained: empty queue, all workers stopped, and exactly the enqueued jobs
recorded with terminal outcomes. -/
lemma stuck_final {C M : Nat} {jobs : List Job} {s : PoolState}
    (hC : 1 ≤ C) (hM : 1 ≤ M) (inv : PoolInv C jobs M s)
    (hstuck : ∀ (w : Nat) (s' : PoolState), ¬ Step C w s s') :
    s.queue = [] ∧ s.workers = List.replicate M WPhase.stopped
      ∧ (s.results.map Prod.fst : Multiset Job) = (jobs : Multiset Job) := by
  have hall := all_stopped_of_stuck hC inv hstuck
  have hstM : stoppedCount s = M := by
    have h1 : s.workers.countP isStopped = s.workers.length :=
      List.countP_eq_length.mpr fun a ha => by rw [hall a ha]; rfl
    simp only [stoppedCount]
    rw [h1, inv.wlen]
  have hsent : sentinels s.queue = 0 := by
    have := inv.sentconsv
    omega
  have hqj : qJobs s.queue = [] := inv.stoppedNoJobs (by omega) hstM
  have hqnil : s.queue = [] := by
    cases hq : s.queue with
    | nil => rfl
    | cons o q =>
      exfalso
      cases o with
      | some j =>
        rw [hq] at hqj
        simp [qJobs, List.filterMap_cons] at hqj
      | none =>
        rw [hq] at hsent
        simp [sentinels, List.countP_cons, Option.isNone_none] at hsent
  have hwrep : s.workers = List.replicate M WPhase.stopped :=
    List.eq_replicate_iff.mpr ⟨inv.wlen, hall⟩
  refine ⟨hqnil, hwrep, ?_⟩
  have h := inv.accounting
  simp only [mQ, mA, mR] at h
  rw [hqnil] at h
  have hA : s.workers.filterMap activeJob = [] :=
    List.filterMap_eq_nil_iff.mpr fun a ha => by rw [hall a ha]; rfl
  rw [hA] at h
  simpa [qJobs, Multiset.coe_nil] using h

/-- Claim C1: on every execution of the worker pool with conversion
concurrency limit C, the number of simultaneously running ffmpeg remux
processes (workers inside the `async with self.ffmpeg_sem` block of
src/main.py:180) never exceeds C; moreover the semaphore's held count always
equals the number of workers inside the block — so every acquire by a stream
job is matched by exactly one release on every exit path, success and
failure (timeout included) alike — and the cumulative acquire count equals
the release count plus the currently held slots in every reachable state. -/
theorem c1_limiter_invariant (C M : Nat) (jobs : List Job) (s : PoolState)
    (h : Reachable C (initState jobs M) s) :
    countConverting s ≤ C
      ∧ s.held = countConverting s
      ∧ s.acq = s.rel + countConverting s :=
  ⟨(reachable_inv h).semcap, (reachable_inv h).semheld, (reachable_inv h).acqrel⟩

/-- Witness for C1 on a concrete two-step trace: one worker dequeues a stream
job and acquires the only semaphore slot. -/
theorem c1_limiter_invariant_witness :
    Reachable 1 (initState [demoJob] 1) c1s2
      ∧ (countConverting c1s2 ≤ 1
        ∧ c1s2.held = countConverting c1s2
        ∧ c1s2.acq = c1s2.rel + countConverting c1s2) := by
  have h1 : Step 1 0 (initState [demoJob] 1) c1s1 :=
    Step.dequeueJob (initState [demoJob] 1) 0 demoJob [none] (by decide) (by decide)
  have h2 : Step 1 0 c1s1 c1s2 :=
    Step.acquire c1s1 0 demoJob (by decide) (by decide)
  have hr : Reachable 1 (initState [demoJob] 1) c1s2 :=
    Reachable.tail _ _ _ (Reachable.tail _ _ _ Reachable.refl h1) h2
  exact ⟨hr, c1_limiter_invariant 1 1 [demoJob] c1s2 hr⟩

/-- Claim C3: with a positive worker count and limiter capacity,
`stop_workers` enqueues exactly one sentinel per worker (`sentinels` of the
start state equals M); every pool step strictly decreases a natural-number
measure, so the drain terminates and `stop_workers` — which awaits all
workers — always returns; and any reachable state with no step left has an
empty queue, all M workers stopped, and a recorded terminal outcome (Done or
Failed) for exactly the enqueued jobs. -/
theorem c3_stop_drains (C M : Nat) (jobs : List Job) (hC : 1 ≤ C) (hM : 1 ≤ M) :
    sentinels (initState jobs M).queue = M
      ∧ (∀ (w : Nat) (s s' : PoolState), Step C w s s' → poolMeasure s' < poolMeasure s)
      ∧ (∀ s : PoolState, Reachable C (initState jobs M) s →
          (∀ (w : Nat) (s' : PoolState), ¬ Step C w s s') →
          s.queue = [] ∧ s.workers = List.replicate M WPhase.stopped
            ∧ (s.results.map Prod.fst : Multiset Job) = (jobs : Multiset Job)) := by
  refine ⟨?_, fun w s s' h => poolMeasure_decreases h, fun s hr hstuck =>
    stuck_final hC hM (reachable_inv hr) hstuck⟩
  simp [initState, sentinels, List.countP_append, List.countP_map, List.countP_replicate,
    Function.comp, Option.isNone_some, Option.isNone_none]

/-- Witness for C3 at one worker, capacity one, and an empty batch. -/
theorem c3_stop_drains_witness :
    (1 : Nat) ≤ 1 ∧ (1 : Nat) ≤ 1
      ∧ (sentinels (initState ([] : List Job) 1).queue = 1
        ∧ (∀ (w : Nat) (s s' : PoolState), Step 1 w s s' → poolMeasure s' < poolMeasure s)
        ∧ (∀ s : PoolState, Reachable 1 (initState ([] : List Job) 1) s →
            (∀ (w : Nat) (s' : PoolState), ¬ Step 1 w s s') →
            s.queue = [] ∧ s.workers = List.replicate 1 WPhase.stopped
              ∧ (s.results.map Prod.fst : Multiset Job) = (([] : List Job) : Multiset Job))) :=
  ⟨le_refl 1, le_refl 1, c3_stop_drains 1 1 [] (le_refl 1) (le_refl 1)⟩

/-- Claim C2 amended: every `Exception`-derived error raised while processing
a job is caught at the worker boundary — the loop continues and exactly one
failure notification naming the offending job's basename is attempted, and
its `finally` acknowledges the item — and a step of one worker never changes
any other worker's state; but an error deriving only from `BaseException`
(e.g. `asyncio.CancelledError`, `KeyboardInterrupt`) escapes the
`except Exception` handler and terminates that worker's loop with no
notification. -/
theorem c2_amended (kind : JobKind) (url : List Char) (primaryFails fallbackFails : Bool) :
    ((worker_loop_iter kind url (.error { isException := true })
        primaryFails fallbackFails).continues = true
      ∧ (worker_loop_iter kind url (.error { isException := true })
          primaryFails fallbackFails).notices = [path_name url]
      ∧ (worker_loop_iter kind url (.error { isException := true })
          primaryFails fallbackFails).taskDone = true
      ∧ (worker_loop_iter kind url (.error { isException := false })
          primaryFails fallbackFails).continues = false)
    ∧ (∀ (C w : Nat) (s s' : PoolState), Step C w s s' →
        ∀ i, i ≠ w → s'.workers[i]? = s.workers[i]?) := by
  constructor
  · cases kind <;> exact ⟨rfl, rfl, rfl, rfl⟩
  · intro C w s s' hstep i hi
    cases hstep <;> exact List.getElem?_set_ne (Ne.symm hi)

/-- Witness for the amended C2 frame property on a concrete step: worker 0 of
two consumes a sentinel; worker 1's state is untouched. -/
theorem c2_amended_witness :
    Step 1 0 (initState ([] : List Job) 2) c2s2
      ∧ c2s2.workers[1]? = (initState ([] : List Job) 2).workers[1]? := by
  have hstep : Step 1 0 (initState ([] : List Job) 2) c2s2 :=
    Step.dequeueSentinel (initState [] 2) 0 [none] (by decide) (by decide)
  exact ⟨hstep, (c2_amended .plain demoUrl false false).2 1 0 _ _ hstep 1 (by decide)⟩

/-- Claim C6 amended: `convert_m3u8_async` bounds its wait only when a
positive timeout is passed — a process outliving it is awaited for exactly
the timeout, killed, and reported with the TimeoutError-style
RuntimeError("ffmpeg timeout") — and a worker leaving the semaphore block on
the failure path always releases its slot, so another conversion can start;
but `process_single` invokes the converter with the Python default timeout 0
(src/main.py:182), so stream jobs' waits are unbounded (see the
counterexample). -/
theorem c6_amended (T d : Nat) (rc : Int) (err : List Nat)
    (C w : Nat) (s : PoolState) (j : Job)
    (hw : s.workers[w]? = some (.converting j)) (hf : j.fails = true) :
    convert_m3u8_async { duration := T + d + 2, returncode := rc, stderr := err } (T + 1)
        = { waited := T + 1, killed := true, result := .error .timeoutKilled }
      ∧ ∃ s', Step C w s s' ∧ s'.held = s.held - 1 ∧ s'.rel = s.rel + 1 := by
  constructor
  · have hcond : 0 < T + 1
        ∧ T + 1 < (ExtProc.mk (T + d + 2) rc err).duration :=
      ⟨Nat.succ_pos T, by show T + 1 < T + d + 2; omega⟩
    unfold convert_m3u8_async
    rw [if_pos hcond]
  · exact ⟨_, Step.convertFail s w j hw hf, rfl, rfl⟩

/-- Witness for the amended C6: a two-unit process against timeout one, and
the concrete converting state `c6s`. -/
theorem c6_amended_witness :
    c6s.workers[0]? = some (.converting demoJobF)
      ∧ demoJobF.fails = true
      ∧ (convert_m3u8_async { duration := 0 + 0 + 2, returncode := 0, stderr := [] } (0 + 1)
            = { waited := 0 + 1, killed := true, result := .error .timeoutKilled }
          ∧ ∃ s', Step 1 0 c6s s' ∧ s'.held = c6s.held - 1 ∧ s'.rel = c6s.rel + 1) :=
  ⟨by decide, rfl, c6_amended 0 0 0 [] 1 0 c6s demoJobF (by decide) rfl⟩

/-- If every call in the list happens at the current last-sent time, the
throttle of src/main.py:173 suppresses all of them. -/
lemma runStatusIdx_allsame (t : Nat) (l : List NotifyCall)
    (h : ∀ c ∈ l, c.2.2.1 = t) : runStatusIdx t l = [] := by
  induction l with
  | nil => rfl
  | cons c rest ih =>
    obtain ⟨i, ctx, u, fin⟩ := c
    have hu : u = t := h (i, ctx, u, fin) (List.mem_cons_self _ _)
    subst hu
    simp only [runStatusIdx]
    rw [Nat.sub_self, if_neg (by omega)]
    exact ih fun c hc => h c (List.mem_cons_of_mem _ hc)

/-- Claim C7 amended: status updates are throttled by a single global
last-sent timestamp (`_last_status_time`, src/main.py:122) shared by all
reporting contexts, with leading-edge semantics: in any burst of n+1 calls at
one loop time more than 10 seconds past the last send, exactly the first call
is delivered and every later one is suppressed, regardless of context;
failure notifications (line 163) bypass this throttle entirely, and there is
no distinguished final Done message. -/
theorem c7_amended (last k n : Nat) :
    runStatusIdx last (burstCalls (n + 1) (last + 11 + k)) = [0] := by
  unfold burstCalls
  rw [List.range_succ_eq_map]
  simp only [List.map_cons, List.map_map]
  simp only [runStatusIdx]
  rw [if_pos (by omega)]
  have htail := runStatusIdx_allsame (last + 11 + k)
    ((List.range n).map ((fun i => (i, 7, last + 11 + k, false)) ∘ Nat.succ))
    (by
      intro c hc
      obtain ⟨i, hi, rfl⟩ := List.mem_map.mp hc
      rfl)
  rw [htail]

/-- Counterexample to claim C7 as stated: 100 status calls in one reporting
context within one second (all at loop time 1000, against the 10-second
throttle, last-sent initially 0). The code's single-global-timestamp
leading-edge throttle delivers exactly the first call (index 0); the spec's
per-context "all but the most recent are suppressed" rule delivers the most
recent one (index 99). -/
theorem c7_counterexample :
    runStatusIdx 0 (burstCalls 100 1000) = [0]
      ∧ spec_notifier_delivered 10 (burstCalls 100 1000) = [99]
      ∧ (0 : Nat) ≠ 99 :=
  ⟨by decide, by decide, by decide⟩

/-! Lemmas for the link extractor. -/

lemma isPre_iff {l1 l2 : List Char} : l1.isPrefixOf l2 = true ↔ l1 <+: l2 :=
  List.isPrefixOf_iff_prefix

lemma rev_pre_iff {l1 l2 : List Char} : l1.reverse <+: l2.reverse ↔ l1 <:+ l2 :=
  List.reverse_prefix

lemma nil_pre (l : List Char) : [] <+: l := ⟨l, rfl⟩

lemma infix_of_pre {l1 l2 : List Char} (h : l1 <+: l2) : l1 <:+: l2 := by
  obtain ⟨t, rfl⟩ := h
  exact ⟨[], t, by simp⟩

lemma infix_of_suf {l1 l2 : List Char} (h : l1 <:+ l2) : l1 <:+: l2 := by
  obtain ⟨u, rfl⟩ := h
  exact ⟨u, [], by simp⟩

lemma inf_cons_of_inf {c : Char} {l1 l2 : List Char} (h : l1 <:+: l2) :
    l1 <:+: c :: l2 := by
  obtain ⟨u, v, huv⟩ := h
  exact ⟨c :: u, v, by simp only [List.cons_append]; rw [huv]⟩

lemma length_dropWhile_le2 (p : Char → Bool) (l : List Char) :
    (l.dropWhile p).length ≤ l.length :=
  (List.dropWhile_suffix p).sublist.length_le

lemma splitWSGo_fuel (f : Nat) : ∀ (g : Nat) (l : List Char),
    l.length ≤ f → l.length ≤ g → splitWSGo f l = splitWSGo g l := by
  induction f with
  | zero =>
    intro g l hf hg
    have : l = [] := List.eq_nil_of_length_eq_zero (by omega)
    subst this
    cases g <;> rfl
  | succ f ih =>
    intro g l hf hg
    cases l with
    | nil => cases g <;> rfl
    | cons c rest =>
      cases g with
      | zero => simp at hg
      | succ g =>
        simp only [splitWSGo]
        by_cases hc : isWS c = true
        · rw [if_pos hc, if_pos hc]
          exact ih g rest (by simp at hf; omega) (by simp at hg; omega)
        · rw [if_neg hc, if_neg hc]
          have hd := length_dropWhile_le2 (fun x => !isWS x) rest
          rw [ih g (rest.dropWhile fun x => !isWS x)
            (by simp at hf; omega) (by simp at hg; omega)]

lemma splitWS_nil : splitWS [] = [] := rfl

lemma splitWS_cons_ws {c : Char} (rest : List Char) (h : isWS c = true) :
    splitWS (c :: rest) = splitWS rest := by
  show splitWSGo (c :: rest).length (c :: rest) = splitWSGo rest.length rest
  rw [List.length_cons]
  simp only [splitWSGo]
  rw [if_pos h]

lemma splitWS_cons_tok {c : Char} (rest : List Char) (h : isWS c = false) :
    splitWS (c :: rest) = (c :: rest.takeWhile fun x => !isWS x)
      :: splitWS (rest.dropWhile fun x => !isWS x) := by
  show splitWSGo (c :: rest).length (c :: rest) = _
  rw [List.length_cons]
  simp only [splitWSGo]
  rw [if_neg (by rw [h]; exact Bool.false_ne_true)]
  have hd := length_dropWhile_le2 (fun x => !isWS x) rest
  rw [splitWSGo_fuel rest.length (rest.dropWhile fun x => !isWS x).length
    (rest.dropWhile fun x => !isWS x) hd (le_refl _)]
  rfl

lemma splitWS_tok_inf : ∀ (l : List Char), ∀ tok ∈ splitWS l, tok <:+: l
  | [] => by simp [splitWS_nil]
  | c :: rest => by
    cases hc : isWS c with
    | true =>
      rw [splitWS_cons_ws rest hc]
      intro tok ht
      exact inf_cons_of_inf (splitWS_tok_inf rest tok ht)
    | false =>
      rw [splitWS_cons_tok rest hc]
      intro tok ht
      rcases List.mem_cons.mp ht with rfl | ht2
      · refine infix_of_pre ⟨rest.dropWhile fun x => !isWS x, ?_⟩
        simp only [List.cons_append]
        rw [List.takeWhile_append_dropWhile]
      · have h1 := splitWS_tok_inf (rest.dropWhile fun x => !isWS x) tok ht2
        have h2 : (rest.dropWhile fun x => !isWS x) <:+ c :: rest :=
          (List.dropWhile_suffix fun x => !isWS x).trans ⟨[c], rfl⟩
        exact h1.trans (infix_of_suf h2)
termination_by l => l.length
decreasing_by
  · have hdw := length_dropWhile_le2 (fun x => !isWS x) rest
    simp only [List.length_cons]
    omega
  · have hdw := length_dropWhile_le2 (fun x => !isWS x) rest
    simp only [List.length_cons]
    omega

lemma not_ws_head_dropWhile (l : List Char) : ∀ (c : Char) (t : List Char),
    l.dropWhile isWS = c :: t → isWS c = false := by
  induction l with
  | nil => intro c t h; simp at h
  | cons a rest ih =>
    intro c t h
    rw [List.dropWhile_cons] at h
    by_cases ha : isWS a = true
    · rw [if_pos ha] at h
      exact ih c t h
    · rw [if_neg ha] at h
      injection h with h1 h2
      subst h1
      exact Bool.not_eq_true _ |>.mp ha

lemma pre_takeWhile (q : Char → Bool) : ∀ (p l : List Char),
    p <+: l → (∀ c ∈ p, q c = true) → p <+: l.takeWhile q := by
  intro p
  induction p with
  | nil => intro l _ _; exact nil_pre _
  | cons a p ih =>
    intro l hp hall
    obtain ⟨t, rfl⟩ := hp
    have hqa : q a = true := hall a (List.mem_cons_self _ _)
    simp only [List.cons_append, List.takeWhile_cons_of_pos hqa]
    exact List.cons_prefix_cons.mpr ⟨rfl,
      ih (p ++ t) (List.prefix_append p t) fun c hc => hall c (List.mem_cons_of_mem _ hc)⟩

lemma isUrlTok_spec (u : List Char) :
    isUrlTok u = true ↔ (httpPre <+: u ∨ httpsPre <+: u) := by
  simp [isUrlTok, Bool.or_eq_true, isPre_iff]

lemma isUrlTok_false_iff (u : List Char) :
    isUrlTok u = false ↔ ¬(httpPre <+: u ∨ httpsPre <+: u) := by
  rw [← isUrlTok_spec]
  cases h : isUrlTok u <;> simp [h]

lemma containsSub_complete (p : List Char) : ∀ (sPre t l : List Char),
    sPre ++ p ++ t = l → containsSub p l = true := by
  intro sPre
  induction sPre with
  | nil =>
    intro t l hst
    have hpre : p <+: l := ⟨t, by simpa using hst⟩
    unfold containsSub
    rw [isPre_iff.mpr hpre]
    simp
  | cons a sPre ih =>
    intro t l hst
    cases l with
    | nil => simp at hst
    | cons b rest =>
      simp only [List.cons_append] at hst
      injection hst with h1 h2
      unfold containsSub
      show (p.isPrefixOf (b :: rest) || containsSub p rest) = true
      rw [ih t rest h2]
      simp

lemma extract_mem (t u : List Char) (hu : u ∈ extract_links_from_text t) :
    ∃ l ∈ linesOf t, u ∈ extractLine l := by
  unfold extract_links_from_text at hu
  rw [List.mem_flatten] at hu
  obtain ⟨lst, hlst, hul⟩ := hu
  obtain ⟨l, hl, rfl⟩ := List.mem_map.mp hlst
  exact ⟨l, hl, hul⟩

lemma extractLine_mem (l u : List Char) (hu : u ∈ extractLine l) :
    isUrlTok u = true := by
  unfold extractLine at hu
  by_cases h1 : isUrlTok l = true
  · rw [if_pos h1] at hu
    rw [List.mem_singleton.mp hu]
    exact h1
  · rw [if_neg h1] at hu
    by_cases h2 : containsSub httpSub l = true
    · rw [if_pos h2] at hu
      exact (List.mem_filter.mp hu).2
    · rw [if_neg h2] at hu
      simp at hu

lemma extractLine_sublist (l : List Char) : (extractLine l).Sublist (l :: splitWS l) := by
  unfold extractLine
  by_cases h1 : isUrlTok l = true
  · rw [if_pos h1]
    exact List.Sublist.cons₂ l (List.nil_sublist _)
  · rw [if_neg h1]
    by_cases h2 : containsSub httpSub l = true
    · rw [if_pos h2]
      exact List.Sublist.cons l (List.filter_sublist _)
    · rw [if_neg h2]
      exact List.nil_sublist _

lemma flatten_map_sublist {α β : Type} (f g : β → List α) (L : List β)
    (h : ∀ b, (f b).Sublist (g b)) :
    ((L.map f).flatten).Sublist ((L.map g).flatten) := by
  induction L with
  | nil => simp
  | cons b L ih =>
    simp only [List.map_cons, List.flatten_cons]
    exact (h b).append ih

lemma exists_urlTok_of_line (l : List Char) (hne : l ≠ [])
    (hhead : ∀ c t, l = c :: t → isWS c = false)
    (hurl : isUrlTok l = true) :
    ∃ tok ∈ splitWS l, isUrlTok tok = true := by
  cases l with
  | nil => exact absurd rfl hne
  | cons c rest =>
    have hc : isWS c = false := hhead c rest rfl
    rw [splitWS_cons_tok rest hc]
    refine ⟨c :: rest.takeWhile fun x => !isWS x, List.mem_cons_self _ _, ?_⟩
    have heq : (c :: rest.takeWhile fun x => !isWS x)
        = (c :: rest).takeWhile fun x => !isWS x := by
      rw [List.takeWhile_cons_of_pos (by rw [hc]; rfl)]
    rw [heq]
    have hhttp : ∀ x ∈ httpPre, (!isWS x) = true := by decide
    have hhttps : ∀ x ∈ httpsPre, (!isWS x) = true := by decide
    rcases (isUrlTok_spec (c :: rest)).mp hurl with hp | hp
    · exact (isUrlTok_spec _).mpr (Or.inl (pre_takeWhile _ _ _ hp hhttp))
    · exact (isUrlTok_spec _).mpr (Or.inr (pre_takeWhile _ _ _ hp hhttps))

lemma no_urlTok_of_no_http (l : List Char) (hno : containsSub httpSub l = false) :
    ∀ tok ∈ splitWS l, isUrlTok tok = false := by
  intro tok htok
  cases hurl : isUrlTok tok with
  | false => rfl
  | true =>
    exfalso
    have hpre : httpSub <+: tok := by
      rcases (isUrlTok_spec tok).mp hurl with hp | hp
      · exact (show httpSub <+: httpPre by decide).trans hp
      · exact (show httpSub <+: httpsPre by decide).trans hp
    have hinf : httpSub <:+: l := (infix_of_pre hpre).trans (splitWS_tok_inf l tok htok)
    obtain ⟨u, v, huv⟩ := hinf
    have := containsSub_complete httpSub u v l huv
    rw [hno] at this
    exact Bool.noConfusion this

lemma linesOf_head_not_ws (t l : List Char) (hl : l ∈ linesOf t) :
    l ≠ [] ∧ ∀ c t', l = c :: t' → isWS c = false := by
  unfold linesOf at hl
  rw [List.mem_filter] at hl
  obtain ⟨hmap, hne⟩ := hl
  obtain ⟨raw, _, rfl⟩ := List.mem_map.mp hmap
  constructor
  · intro h
    rw [h] at hne
    simp at hne
  · intro c t' hct
    have hpre : strip raw <+: raw.dropWhile isWS := by
      unfold strip dropTrailWS
      have hsuf : ((raw.dropWhile isWS).reverse.dropWhile isWS)
          <:+ (raw.dropWhile isWS).reverse := List.dropWhile_suffix isWS
      have h2 := rev_pre_iff.mpr hsuf
      rwa [List.reverse_reverse] at h2
    rw [hct] at hpre
    obtain ⟨t2, ht2⟩ := hpre
    refine not_ws_head_dropWhile raw c (t' ++ t2) ?_
    rw [← ht2]
    simp

lemma extractLine_nil_iff (l : List Char) (hne : l ≠ [])
    (hhead : ∀ c t, l = c :: t → isWS c = false) :
    extractLine l = [] ↔ ∀ tok ∈ splitWS l, isUrlTok tok = false := by
  unfold extractLine
  by_cases h1 : isUrlTok l = true
  · rw [if_pos h1]
    refine iff_of_false (by simp) ?_
    intro hall
    obtain ⟨tok, htok, hurl⟩ := exists_urlTok_of_line l hne hhead h1
    rw [hall tok htok] at hurl
    exact Bool.noConfusion hurl
  · rw [if_neg h1]
    by_cases h2 : containsSub httpSub l = true
    · rw [if_pos h2]
      constructor
      · intro hnil tok htok
        cases hurl : isUrlTok tok with
        | false => rfl
        | true =>
          exfalso
          have hmem : tok ∈ (splitWS l).filter isUrlTok :=
            List.mem_filter.mpr ⟨htok, hurl⟩
          rw [hnil] at hmem
          simp at hmem
      · intro hall
        refine List.filter_eq_nil_iff.mpr ?_
        intro tok htok
        rw [hall tok htok]
        simp
    · rw [if_neg h2]
      refine iff_of_true rfl ?_
      have h2f : containsSub httpSub l = false := by
        cases hcs : containsSub httpSub l with
        | false => rfl
        | true => exact absurd hcs h2
      exact no_urlTok_of_no_http l h2f

/-- Claim C10: every element of the extractor's output starts with "http://"
or "https://"; the output is an order-preserving selection (a sublist) of the
stream of the non-empty stripped lines and their whitespace-delimited tokens
in input order; and the output is empty exactly when no whitespace-delimited
token of any non-empty line starts with either scheme. -/
theorem c10_extractor (t : List Char) :
    (∀ u ∈ extract_links_from_text t, httpPre <+: u ∨ httpsPre <+: u)
      ∧ (extract_links_from_text t).Sublist (tokenStream t)
      ∧ (extract_links_from_text t = []
          ↔ ∀ l ∈ linesOf t, ∀ tok ∈ splitWS l,
              ¬(httpPre <+: tok ∨ httpsPre <+: tok)) := by
  refine ⟨?_, ?_, ?_⟩
  · intro u hu
    obtain ⟨l, _, hul⟩ := extract_mem t u hu
    exact (isUrlTok_spec u).mp (extractLine_mem l u hul)
  · unfold extract_links_from_text tokenStream
    exact flatten_map_sublist extractLine (fun l => l :: splitWS l) (linesOf t)
      extractLine_sublist
  · unfold extract_links_from_text
    rw [List.flatten_eq_nil_iff]
    constructor
    · intro hall l hl tok htok
      have hline : extractLine l = [] := hall (extractLine l) (List.mem_map_of_mem _ hl)
      obtain ⟨hne, hhead⟩ := linesOf_head_not_ws t l hl
      exact (isUrlTok_false_iff tok).mp
        (((extractLine_nil_iff l hne hhead).mp hline) tok htok)
    · intro hall lst hlst
      obtain ⟨l, hl, rfl⟩ := List.mem_map.mp hlst
      obtain ⟨hne, hhead⟩ := linesOf_head_not_ws t l hl
      exact (extractLine_nil_iff l hne hhead).mpr fun tok htok =>
        (isUrlTok_false_iff tok).mpr (hall l hl tok htok)

/-- Witness for C10 on the concrete text "xx http://a" / "https://b" / "yy":
the token "http://a" is extracted and starts with "http://". -/
theorem c10_extractor_witness :
    c10Url ∈ extract_links_from_text c10Text
      ∧ (httpPre <+: c10Url ∨ httpsPre <+: c10Url) :=
  ⟨by decide, (c10_extractor c10Text).1 c10Url (by decide)⟩

end TLBot
